import Mathlib

/-!
Verification of the precedence-climbing expression parser of
`src/parsing_math/src/lib.rs` (crate `parsing_math`).

The Rust code is embedded shallowly:

* `Token`, `Precedence`, `Token.precedence`, `Token.to_binop`, the cursor
  primitives (`Parser::cur`, `Parser::next`) and the five mutually recursive
  productions (`Parser::parse_exp`, `Parser::parse_binops` together with its
  inner `while` loop, `Parser::parse_term`, `Parser::parse_primary`,
  `Parser::parse_postfix` — here named `Parser.parse_calls` — plus
  `expect_rparen` / `expect_eof`) are translated function by function.
* Rust's mutable `Parser { tokens, pos }` state becomes explicit
  `(ts : List Token)` / `(pos : Nat)` arguments; each production returns the
  parsed node together with the new cursor position.
* Rust's `Result<Box<AstNode>, String>` becomes the `PRes` type below.  Two
  extra outcomes make the embedding total and make the abnormal behaviors of
  the source observable: `panicked` models a Rust `panic!` / failed `assert!`
  (in `Parser::next` and `Token::to_binop`), and `outOfFuel` models
  exhaustion of the explicit recursion fuel that replaces Rust's unbounded
  recursion.  Termination of the source then shows up as theorems that a
  concrete fuel bound never returns `outOfFuel`.
* `f64` literals become `Float` values; the parser never computes with them,
  it only moves them from tokens into AST leaves.
-/

namespace ParsingMath

-- ------------------------------------------------------------------------
-- AST model (crate-local `mod ast`)
-- ------------------------------------------------------------------------

/-- Modelled from the spec: the `ast` module of the `parsing_math` crate
(`mod ast;` in `src/parsing_math/src/lib.rs`) is not present under `src/`;
only its constructors (`AstNode::id`, `num`, `neg`, `bin`, `call`, `BinOp`)
are visible at the call sites.  Spec section 3 lists the binary-operation
kinds Add, Subtract, Multiply, Divide, Modulo. -/
inductive BinOp where
  | add
  | sub
  | mul
  | div
  | mod
deriving DecidableEq

/-- Modelled from the spec: the `ast` module of the `parsing_math` crate is
not present under `src/`.  Spec section 3: tagged variants
`Identifier(name)`, `NumberLiteral(value)`, `Negate(operand)`,
`BinaryOp(kind, left, right)`, `Call(callee, argument)`.  The constructor
names follow the constructor helpers used by the parser
(`AstNode::id/num/neg/bin/call`). -/
inductive AstNode where
  | id (name : String)
  | num (val : Float)
  | neg (operand : AstNode)
  | bin (op : BinOp) (lhs rhs : AstNode)
  | call (callee arg : AstNode)

-- ------------------------------------------------------------------------
-- Token
-- ------------------------------------------------------------------------

/-- `enum Token` from `src/parsing_math/src/lib.rs`. -/
inductive Token where
  | eof
  | lparen
  | rparen
  | plus
  | minus
  | times
  | divide
  | modulo
  | id (name : String)
  | numLit (val : Float)

/-- `impl Display for Token`: the text used when an error message quotes the
offending token (the Rust `format!("{}", t)`). -/
def Token.display : Token → String
  | .eof => ""
  | .lparen => "("
  | .rparen => ")"
  | .plus => "+"
  | .minus => "-"
  | .times => "*"
  | .divide => "/"
  | .modulo => "%"
  | .id name => name
  | .numLit v => toString v

-- ------------------------------------------------------------------------
-- Precedence
-- ------------------------------------------------------------------------

/-- `enum Precedence` (listed lowest to highest, as in the source): `None`
is below every real precedence; `Add` covers `+`/`-`; `Mul` covers
`*`/`/`/`%`. -/
inductive Precedence where
  | none
  | add
  | mul
deriving DecidableEq

/-- The derived Rust `Ord` on `Precedence` orders the variants in
declaration order; we realize it through their declaration index. -/
def Precedence.rank : Precedence → Nat
  | .none => 0
  | .add => 1
  | .mul => 2

/-- `Precedence::MIN`: the minimum real operator precedence. -/
def Precedence.MIN : Precedence := Precedence.add

/-- `Precedence::is_at_least`: `*self >= other` under the derived `Ord`. -/
def Precedence.is_at_least (a b : Precedence) : Bool :=
  decide (b.rank ≤ a.rank)

/-- `Precedence::is_higher_than`: `*self > other` under the derived `Ord`. -/
def Precedence.is_higher_than (a b : Precedence) : Bool :=
  decide (b.rank < a.rank)

/-- `Token::precedence`: the precedence of an operator token,
`Precedence::None` for every other token. -/
def Token.precedence : Token → Precedence
  | .plus | .minus => .add
  | .times | .divide | .modulo => .mul
  | _ => .none

/-- `Token::to_binop` maps an operator token to its `BinOp`; on any other
token the source panics, which we expose as `Option.none` (the caller in
`parse_binops` turns it into the `panicked` outcome with the source's panic
message). -/
def Token.to_binop : Token → Option BinOp
  | .plus => some .add
  | .minus => some .sub
  | .times => some .mul
  | .divide => some .div
  | .modulo => some .mod
  | _ => Option.none

-- ------------------------------------------------------------------------
-- Parse results
-- ------------------------------------------------------------------------

/-- Outcome of a parsing function.  `ok`/`err` are the two sides of the Rust
`ParseResult`; `panicked` models an aborted process (failed `assert!` in
`Parser::next`, or the `panic!` arm of `Token::to_binop`); `outOfFuel`
only signals that the explicit recursion fuel ran out. -/
inductive PRes (α : Type) where
  | ok (val : α)
  | err (msg : String)
  | panicked (msg : String)
  | outOfFuel

/-- Sequencing of parse steps: the embedding of Rust's `?` operator.
Errors, panics and fuel exhaustion all short-circuit. -/
def PRes.bind {α β : Type} (r : PRes α) (f : α → PRes β) : PRes β :=
  match r with
  | .ok v => f v
  | .err m => .err m
  | .panicked m => .panicked m
  | .outOfFuel => .outOfFuel

/-- Whether a result is the `panicked` outcome. -/
def PRes.isPanicked {α : Type} : PRes α → Bool
  | .panicked _ => true
  | _ => false

@[simp] theorem PRes.bind_ok {α β : Type} (v : α) (f : α → PRes β) :
    (PRes.ok v).bind f = f v := rfl

@[simp] theorem PRes.bind_err {α β : Type} (m : String) (f : α → PRes β) :
    (PRes.err m).bind f = .err m := rfl

@[simp] theorem PRes.bind_panicked {α β : Type} (m : String) (f : α → PRes β) :
    (PRes.panicked m).bind f = .panicked m := rfl

@[simp] theorem PRes.bind_outOfFuel {α β : Type} (f : α → PRes β) :
    (PRes.outOfFuel : PRes α).bind f = .outOfFuel := rfl

-- ------------------------------------------------------------------------
-- Cursor primitives
-- ------------------------------------------------------------------------

namespace Parser

/-- `Parser::cur`: the token at the cursor, or `Eof` when the position is at
or beyond the end of the slice. -/
def cur (ts : List Token) (pos : Nat) : Token :=
  if h : pos < ts.length then ts.get ⟨pos, h⟩ else .eof

/-- `Parser::next`: `assert!(self.pos < self.tokens.len()); self.pos += 1;`.
The failed assertion is the `panicked` outcome. -/
def next (ts : List Token) (pos : Nat) : PRes Nat :=
  if pos < ts.length then .ok (pos + 1)
  else .panicked "assertion failed: self.pos < self.tokens.len()"

/-- `Parser::expect_rparen`; returns the advanced position on success. -/
def expect_rparen (ts : List Token) (pos : Nat) : PRes Nat :=
  match cur ts pos with
  | .rparen => next ts pos
  | _ => .err "expected a right parenthesis"

/-- `Parser::expect_eof`. -/
def expect_eof (ts : List Token) (pos : Nat) : PRes Unit :=
  match cur ts pos with
  | .eof => .ok ()
  | _ => .err "expected eof (there's extra stuff after the expression)"

-- ------------------------------------------------------------------------
-- The five mutually recursive productions
-- ------------------------------------------------------------------------

mutual

/-- `Parser::parse_exp` — `Exp: Term (BinOp Term)*`: parse a `Term`, then
run the binary-operator climbing loop with the floor `Precedence::MIN`. -/
def parse_exp : Nat → List Token → Nat → PRes (AstNode × Nat)
  | 0, _, _ => .outOfFuel
  | fuel + 1, ts, pos =>
    (parse_term fuel ts pos).bind fun lp =>
      parse_binops fuel ts lp.1 Precedence.MIN lp.2
termination_by structural fuel _ _ => fuel

/-- `Parser::parse_binops`: one iteration of the outer `while` loop.  While
the current token is an operator of precedence at least `min_prec`: capture
it, advance, parse a `Term` as candidate right-hand side, absorb any
strictly-higher-precedence suffix (the inner `while`, `parse_binops_inner`),
combine into a `Binary` node, and loop. -/
def parse_binops : Nat → List Token → AstNode → Precedence → Nat → PRes (AstNode × Nat)
  | 0, _, _, _, _ => .outOfFuel
  | fuel + 1, ts, lhs, min_prec, pos =>
    let c := cur ts pos
    if c.precedence.is_at_least min_prec then
      (next ts pos).bind fun pos1 =>
        (parse_term fuel ts pos1).bind fun rp =>
          (parse_binops_inner fuel ts c rp.1 rp.2).bind fun rp2 =>
            match c.to_binop with
            | some op => parse_binops fuel ts (AstNode.bin op lhs rp2.1) min_prec rp2.2
            | Option.none => .panicked "to_binop() called on a non-operator token"
    else
      .ok (lhs, pos)
termination_by structural fuel _ _ _ _ => fuel

/-- The inner `while` loop of `Parser::parse_binops`: while the current
token has precedence strictly higher than the captured operator `op`,
recursively re-enter `parse_binops` with that higher precedence as the
floor, folding the result back into the right-hand side. -/
def parse_binops_inner : Nat → List Token → Token → AstNode → Nat → PRes (AstNode × Nat)
  | 0, _, _, _, _ => .outOfFuel
  | fuel + 1, ts, op, rhs, pos =>
    if (cur ts pos).precedence.is_higher_than op.precedence then
      (parse_binops fuel ts rhs (cur ts pos).precedence pos).bind fun rp =>
        parse_binops_inner fuel ts op rp.1 rp.2
    else
      .ok (rhs, pos)
termination_by structural fuel _ _ _ _ => fuel

/-- `Parser::parse_term` — `Term: UnaryOp* PrimaryExp PostfixOp*`: a leading
`-` is unary negation whose operand is another `Term`; otherwise a primary
expression followed by its postfix operators. -/
def parse_term : Nat → List Token → Nat → PRes (AstNode × Nat)
  | 0, _, _ => .outOfFuel
  | fuel + 1, ts, pos =>
    match cur ts pos with
    | .minus =>
      (next ts pos).bind fun pos1 =>
        (parse_term fuel ts pos1).bind fun rp =>
          .ok (AstNode.neg rp.1, rp.2)
    | _ =>
      (parse_primary fuel ts pos).bind fun pp =>
        parse_calls fuel ts pp.1 pp.2
termination_by structural fuel _ _ => fuel

/-- `Parser::parse_primary` — `PrimaryExp: IdExp | NumExp | ParenExp`.
The error message text follows the source (`format!`) with the token
rendered through `Token.display`. -/
def parse_primary : Nat → List Token → Nat → PRes (AstNode × Nat)
  | 0, _, _ => .outOfFuel
  | fuel + 1, ts, pos =>
    match cur ts pos with
    | .id name =>
      (next ts pos).bind fun pos1 => .ok (AstNode.id name, pos1)
    | .numLit val =>
      (next ts pos).bind fun pos1 => .ok (AstNode.num val, pos1)
    | .lparen =>
      (next ts pos).bind fun pos1 =>
        (parse_exp fuel ts pos1).bind fun rp =>
          (expect_rparen ts rp.2).bind fun pos2 =>
            .ok (rp.1, pos2)
    | t =>
      .err ("expected an identifier, number, or parenthesized expression, not '"
        ++ t.display ++ "'")
termination_by structural fuel _ _ => fuel

/-- `Parser::parse_postfix` — `PostfixOp: CallOp` (renamed `parse_calls`
here): while the current token is `(`, parse one argument expression,
require `)`, and fold into a `Call` node with the previous result as the
callee. -/
def parse_calls : Nat → List Token → AstNode → Nat → PRes (AstNode × Nat)
  | 0, _, _, _ => .outOfFuel
  | fuel + 1, ts, lhs, pos =>
    match cur ts pos with
    | .lparen =>
      (next ts pos).bind fun pos1 =>
        (parse_exp fuel ts pos1).bind fun rp =>
          (expect_rparen ts rp.2).bind fun pos2 =>
            parse_calls fuel ts (AstNode.call lhs rp.1) pos2
    | _ => .ok (lhs, pos)
termination_by structural fuel _ _ _ => fuel

end

end Parser

/-- The public entry point `parse_exp(tokens: &[Token])`: parse one
expression starting from position 0, then require the end-of-input token.
`fuel` bounds the recursion depth of the embedding; `3 * tokens.length + 3`
is always enough (see the termination theorem). -/
def parse_exp (tokens : List Token) (fuel : Nat) : PRes AstNode :=
  (Parser.parse_exp fuel tokens 0).bind fun rp =>
    (Parser.expect_eof tokens rp.2).bind fun _ =>
      .ok rp.1

-- ------------------------------------------------------------------------
-- Basic facts about the cursor primitives and token classification
-- ------------------------------------------------------------------------

theorem Parser.cur_eq_eof (ts : List Token) (pos : Nat) (h : ts.length ≤ pos) :
    Parser.cur ts pos = Token.eof := by
  unfold Parser.cur
  rw [dif_neg (by omega)]

theorem Parser.lt_of_cur_ne_eof (ts : List Token) (pos : Nat)
    (h : Parser.cur ts pos ≠ Token.eof) : pos < ts.length := by
  by_contra hn
  exact h (Parser.cur_eq_eof ts pos (by omega))

theorem Parser.next_eq_ok (ts : List Token) (pos : Nat) (h : pos < ts.length) :
    Parser.next ts pos = PRes.ok (pos + 1) := by
  unfold Parser.next
  rw [if_pos h]

theorem Parser.next_ok (ts : List Token) (pos v : Nat)
    (h : Parser.next ts pos = PRes.ok v) : v = pos + 1 ∧ pos < ts.length := by
  unfold Parser.next at h
  split at h
  · exact ⟨(PRes.ok.injEq _ _).mp h |>.symm, by assumption⟩
  · cases h

theorem Parser.expect_rparen_ok (ts : List Token) (pos v : Nat)
    (h : Parser.expect_rparen ts pos = PRes.ok v) :
    v = pos + 1 ∧ Parser.cur ts pos = Token.rparen := by
  unfold Parser.expect_rparen at h
  split at h
  case _ heq => exact ⟨(Parser.next_ok ts pos v h).1, heq⟩
  case _ => cases h

theorem Parser.expect_rparen_not_panicked (ts : List Token) (pos : Nat) :
    (Parser.expect_rparen ts pos).isPanicked = false := by
  unfold Parser.expect_rparen
  split
  case _ heq =>
    have hlt : pos < ts.length := by
      apply Parser.lt_of_cur_ne_eof
      rw [heq]
      intro hx
      cases hx
    rw [Parser.next_eq_ok ts pos hlt]
    rfl
  case _ => rfl

theorem Parser.expect_rparen_ne_outOfFuel (ts : List Token) (pos : Nat) :
    Parser.expect_rparen ts pos ≠ PRes.outOfFuel := by
  unfold Parser.expect_rparen Parser.next
  split
  · split
    · intro hx
      cases hx
    · intro hx
      cases hx
  · intro hx
    cases hx

theorem Parser.expect_eof_cases (ts : List Token) (pos : Nat) :
    Parser.expect_eof ts pos = PRes.ok () ∨
      Parser.expect_eof ts pos =
        PRes.err "expected eof (there's extra stuff after the expression)" := by
  unfold Parser.expect_eof
  split
  · exact Or.inl rfl
  · exact Or.inr rfl

/-- A token whose precedence is a real (non-`None`) precedence is one of the
five operator tokens; in particular it is not `Eof` and `to_binop`
succeeds on it. -/
theorem Token.of_prec_ne_none (t : Token) (h : t.precedence ≠ Precedence.none) :
    t ≠ Token.eof ∧ ∃ b, t.to_binop = some b := by
  cases t <;> simp [Token.precedence, Token.to_binop] at h ⊢

theorem Precedence.rank_pos_of_ne_none (p : Precedence)
    (h : p ≠ Precedence.none) : 1 ≤ p.rank := by
  cases p <;> simp [Precedence.rank] at h ⊢

theorem Precedence.ne_none_of_rank_pos (p : Precedence) (h : 1 ≤ p.rank) :
    p ≠ Precedence.none := by
  cases p <;> simp [Precedence.rank] at h ⊢

theorem Precedence.is_at_least_iff (a b : Precedence) :
    Precedence.is_at_least a b = true ↔ b.rank ≤ a.rank := by
  simp [Precedence.is_at_least]

theorem Precedence.is_higher_than_iff (a b : Precedence) :
    Precedence.is_higher_than a b = true ↔ b.rank < a.rank := by
  simp [Precedence.is_higher_than]

theorem Precedence.is_at_least_refl (a : Precedence) :
    Precedence.is_at_least a a = true := by
  simp [Precedence.is_at_least]

-- ------------------------------------------------------------------------
-- Inversion of sequencing
-- ------------------------------------------------------------------------

theorem PRes.bind_eq_ok {α β : Type} {r : PRes α} {f : α → PRes β} {b : β}
    (h : r.bind f = .ok b) : ∃ a, r = .ok a ∧ f a = .ok b := by
  cases r <;> simp_all [PRes.bind]

-- ------------------------------------------------------------------------
-- Progress: successful productions move the cursor forward
-- ------------------------------------------------------------------------

/-- Progress, for all six parsing functions at once (by induction on the
fuel): a successful parse never moves the cursor backwards; `parse_exp`,
`parse_term` and `parse_primary` always consume at least one token; one
entered iteration of the `parse_binops` loop consumes at least one token. -/
theorem progress_all (fuel : Nat) (ts : List Token) :
    (∀ pos n p', Parser.parse_exp fuel ts pos = .ok (n, p') → pos < p') ∧
    (∀ lhs mp pos n p', Parser.parse_binops fuel ts lhs mp pos = .ok (n, p') →
      pos ≤ p' ∧
        ((Parser.cur ts pos).precedence.is_at_least mp = true → pos < p')) ∧
    (∀ op rhs pos n p',
      Parser.parse_binops_inner fuel ts op rhs pos = .ok (n, p') → pos ≤ p') ∧
    (∀ pos n p', Parser.parse_term fuel ts pos = .ok (n, p') → pos < p') ∧
    (∀ pos n p', Parser.parse_primary fuel ts pos = .ok (n, p') → pos < p') ∧
    (∀ lhs pos n p',
      Parser.parse_calls fuel ts lhs pos = .ok (n, p') → pos ≤ p') := by
  induction fuel with
  | zero =>
    refine ⟨?_, ?_, ?_, ?_, ?_, ?_⟩ <;> intros <;>
      simp_all [Parser.parse_exp, Parser.parse_binops,
        Parser.parse_binops_inner, Parser.parse_term, Parser.parse_primary,
        Parser.parse_calls]
  | succ fuel ih =>
    obtain ⟨ihExp, ihBin, ihInner, ihTerm, ihPrim, ihCalls⟩ := ih
    refine ⟨?_, ?_, ?_, ?_, ?_, ?_⟩
    · -- parse_exp
      intro pos n p' h
      simp only [Parser.parse_exp] at h
      obtain ⟨lp, ht, h⟩ := PRes.bind_eq_ok h
      have h1 := ihTerm pos lp.1 lp.2 (by rw [ht])
      have h2 := (ihBin lp.1 Precedence.MIN lp.2 n p' h).1
      omega
    · -- parse_binops
      intro lhs mp pos n p' h
      simp only [Parser.parse_binops] at h
      split at h
      case isTrue hc =>
        obtain ⟨pos1, hn, h⟩ := PRes.bind_eq_ok h
        obtain ⟨hpos1, hlt⟩ := Parser.next_ok ts pos pos1 hn
        subst hpos1
        obtain ⟨rp, htm, h⟩ := PRes.bind_eq_ok h
        have h1 := ihTerm (pos + 1) rp.1 rp.2 (by rw [htm])
        obtain ⟨rp2, hin, h⟩ := PRes.bind_eq_ok h
        have h2 := ihInner (Parser.cur ts pos) rp.1 rp.2 rp2.1 rp2.2
          (by rw [hin])
        cases hb : (Parser.cur ts pos).to_binop with
        | some op =>
          rw [hb] at h
          have h3 := (ihBin (AstNode.bin op lhs rp2.1) mp rp2.2 n p' h).1
          exact ⟨by omega, fun _ => by omega⟩
        | none =>
          rw [hb] at h
          simp at h
      case isFalse hc =>
        simp at h
        obtain ⟨h1, h2⟩ := h
        subst h2
        exact ⟨le_refl _, fun hco => absurd hco hc⟩
    · -- parse_binops_inner
      intro op rhs pos n p' h
      simp only [Parser.parse_binops_inner] at h
      split at h
      case isTrue hc =>
        obtain ⟨rp, hb, h⟩ := PRes.bind_eq_ok h
        have h1 := (ihBin rhs (Parser.cur ts pos).precedence pos rp.1 rp.2
          (by rw [hb])).2 (Precedence.is_at_least_refl _)
        have h2 := ihInner op rp.1 rp.2 n p' h
        omega
      case isFalse hc =>
        simp at h
        obtain ⟨h1, h2⟩ := h
        omega
    · -- parse_term
      intro pos n p' h
      simp only [Parser.parse_term] at h
      cases hcu : Parser.cur ts pos
      case minus =>
        rw [hcu] at h
        simp only [] at h
        obtain ⟨pos1, hn, h⟩ := PRes.bind_eq_ok h
        obtain ⟨hpos1, hlt⟩ := Parser.next_ok ts pos pos1 hn
        subst hpos1
        obtain ⟨rp, htm, h⟩ := PRes.bind_eq_ok h
        have h1 := ihTerm (pos + 1) rp.1 rp.2 (by rw [htm])
        simp at h
        obtain ⟨_, h2⟩ := h
        omega
      all_goals {
        rw [hcu] at h
        obtain ⟨pp, hp, h⟩ := PRes.bind_eq_ok h
        have h1 := ihPrim pos pp.1 pp.2 (by rw [hp])
        have h2 := ihCalls pp.1 pp.2 n p' h
        omega
      }
    · -- parse_primary
      intro pos n p' h
      simp only [Parser.parse_primary] at h
      cases hcu : Parser.cur ts pos
      case id name =>
        rw [hcu] at h
        obtain ⟨pos1, hn, h⟩ := PRes.bind_eq_ok h
        obtain ⟨hpos1, hlt⟩ := Parser.next_ok ts pos pos1 hn
        simp at h
        omega
      case numLit val =>
        rw [hcu] at h
        obtain ⟨pos1, hn, h⟩ := PRes.bind_eq_ok h
        obtain ⟨hpos1, hlt⟩ := Parser.next_ok ts pos pos1 hn
        simp at h
        omega
      case lparen =>
        rw [hcu] at h
        obtain ⟨pos1, hn, h⟩ := PRes.bind_eq_ok h
        obtain ⟨hpos1, hlt⟩ := Parser.next_ok ts pos pos1 hn
        subst hpos1
        obtain ⟨rp, he, h⟩ := PRes.bind_eq_ok h
        have h1 := ihExp (pos + 1) rp.1 rp.2 (by rw [he])
        obtain ⟨pos2, hr, h⟩ := PRes.bind_eq_ok h
        obtain ⟨hpos2, _⟩ := Parser.expect_rparen_ok ts rp.2 pos2 hr
        simp at h
        omega
      all_goals {
        rw [hcu] at h
        simp at h
      }
    · -- parse_calls
      intro lhs pos n p' h
      simp only [Parser.parse_calls] at h
      cases hcu : Parser.cur ts pos
      case lparen =>
        rw [hcu] at h
        obtain ⟨pos1, hn, h⟩ := PRes.bind_eq_ok h
        obtain ⟨hpos1, hlt⟩ := Parser.next_ok ts pos pos1 hn
        subst hpos1
        obtain ⟨rp, he, h⟩ := PRes.bind_eq_ok h
        have h1 := ihExp (pos + 1) rp.1 rp.2 (by rw [he])
        obtain ⟨pos2, hr, h⟩ := PRes.bind_eq_ok h
        obtain ⟨hpos2, _⟩ := Parser.expect_rparen_ok ts rp.2 pos2 hr
        have h2 := ihCalls (AstNode.call lhs rp.1) pos2 n p' h
        omega
      all_goals {
        rw [hcu] at h
        simp at h
        obtain ⟨_, h2⟩ := h
        omega
      }

theorem Parser.next_ne_outOfFuel (ts : List Token) (pos : Nat) :
    Parser.next ts pos ≠ PRes.outOfFuel := by
  unfold Parser.next
  split <;> intro hx <;> cases hx

theorem PRes.bind_ne_outOfFuel {α β : Type} {r : PRes α} {f : α → PRes β}
    (h1 : r ≠ .outOfFuel) (h2 : ∀ a, r = .ok a → f a ≠ .outOfFuel) :
    r.bind f ≠ .outOfFuel := by
  cases r with
  | ok v => exact h2 v rfl
  | err m => intro hx; cases hx
  | panicked m => intro hx; cases hx
  | outOfFuel => exact absurd rfl h1

-- ------------------------------------------------------------------------
-- Totality: enough fuel rules out the `outOfFuel` outcome
-- ------------------------------------------------------------------------

/-- Fuel sufficiency, by induction on an upper bound `k` for the number of
tokens still ahead of the cursor (`ts.length ≤ pos + k`): with fuel at
least `3 * k + 3`, every production completes (it never runs out of fuel).
This is exactly the termination argument of the source: every entered
iteration of the `parse_binops` loop consumes at least one token (so
recursive work happens at strictly larger positions), and the only
same-position recursion — the inner loop re-entering `parse_binops` —
consumes a unit of fuel while its own loop body strictly advances. -/
theorem total_all (ts : List Token) : ∀ k : Nat,
    (∀ pos, ts.length ≤ pos + k → ∀ lhs mp fuel, 3 * k + 1 ≤ fuel →
      Parser.parse_binops fuel ts lhs mp pos ≠ .outOfFuel) ∧
    (∀ pos, ts.length ≤ pos + k → ∀ fuel, 3 * k + 1 ≤ fuel →
      Parser.parse_primary fuel ts pos ≠ .outOfFuel) ∧
    (∀ pos, ts.length ≤ pos + k → ∀ lhs fuel, 3 * k + 1 ≤ fuel →
      Parser.parse_calls fuel ts lhs pos ≠ .outOfFuel) ∧
    (∀ pos, ts.length ≤ pos + k → ∀ fuel, 3 * k + 2 ≤ fuel →
      Parser.parse_term fuel ts pos ≠ .outOfFuel) ∧
    (∀ pos, ts.length ≤ pos + k → ∀ op rhs fuel, 3 * k + 2 ≤ fuel →
      Parser.parse_binops_inner fuel ts op rhs pos ≠ .outOfFuel) ∧
    (∀ pos, ts.length ≤ pos + k → ∀ fuel, 3 * k + 3 ≤ fuel →
      Parser.parse_exp fuel ts pos ≠ .outOfFuel) := by
  intro k
  induction k with
  | zero =>
    have hbin : ∀ pos, ts.length ≤ pos + 0 → ∀ lhs mp fuel, 3 * 0 + 1 ≤ fuel →
        Parser.parse_binops fuel ts lhs mp pos ≠ .outOfFuel := by
      intro pos hk lhs mp fuel hfuel
      obtain ⟨f, rfl⟩ : ∃ f, fuel = f + 1 := ⟨fuel - 1, by omega⟩
      simp only [Parser.parse_binops]
      split
      · refine PRes.bind_ne_outOfFuel (Parser.next_ne_outOfFuel ts pos) ?_
        intro a ha
        unfold Parser.next at ha
        rw [if_neg (by omega)] at ha
        cases ha
      · intro hx
        cases hx
    have hprim : ∀ pos, ts.length ≤ pos + 0 → ∀ fuel, 3 * 0 + 1 ≤ fuel →
        Parser.parse_primary fuel ts pos ≠ .outOfFuel := by
      intro pos hk fuel hfuel
      obtain ⟨f, rfl⟩ : ∃ f, fuel = f + 1 := ⟨fuel - 1, by omega⟩
      simp [Parser.parse_primary, Parser.cur_eq_eof ts pos (by omega)]
    have hcalls : ∀ pos, ts.length ≤ pos + 0 → ∀ lhs fuel, 3 * 0 + 1 ≤ fuel →
        Parser.parse_calls fuel ts lhs pos ≠ .outOfFuel := by
      intro pos hk lhs fuel hfuel
      obtain ⟨f, rfl⟩ : ∃ f, fuel = f + 1 := ⟨fuel - 1, by omega⟩
      simp [Parser.parse_calls, Parser.cur_eq_eof ts pos (by omega)]
    have hterm : ∀ pos, ts.length ≤ pos + 0 → ∀ fuel, 3 * 0 + 2 ≤ fuel →
        Parser.parse_term fuel ts pos ≠ .outOfFuel := by
      intro pos hk fuel hfuel
      obtain ⟨f, rfl⟩ : ∃ f, fuel = f + 1 := ⟨fuel - 1, by omega⟩
      simp only [Parser.parse_term]
      rw [Parser.cur_eq_eof ts pos (by omega)]
      refine PRes.bind_ne_outOfFuel (hprim pos (by omega) f (by omega)) ?_
      intro pp hpp
      have h1 := (progress_all f ts).2.2.2.2.1 pos pp.1 pp.2 (by rw [hpp])
      exact hcalls pp.2 (by omega) pp.1 f (by omega)
    have hinner : ∀ pos, ts.length ≤ pos + 0 → ∀ op rhs fuel, 3 * 0 + 2 ≤ fuel →
        Parser.parse_binops_inner fuel ts op rhs pos ≠ .outOfFuel := by
      intro pos hk op rhs fuel hfuel
      obtain ⟨f, rfl⟩ : ∃ f, fuel = f + 1 := ⟨fuel - 1, by omega⟩
      simp [Parser.parse_binops_inner, Parser.cur_eq_eof ts pos (by omega),
        Token.precedence, Precedence.is_higher_than, Precedence.rank]
    have hexp : ∀ pos, ts.length ≤ pos + 0 → ∀ fuel, 3 * 0 + 3 ≤ fuel →
        Parser.parse_exp fuel ts pos ≠ .outOfFuel := by
      intro pos hk fuel hfuel
      obtain ⟨f, rfl⟩ : ∃ f, fuel = f + 1 := ⟨fuel - 1, by omega⟩
      simp only [Parser.parse_exp]
      refine PRes.bind_ne_outOfFuel (hterm pos (by omega) f (by omega)) ?_
      intro lp hlp
      have h1 := (progress_all f ts).2.2.2.1 pos lp.1 lp.2 (by rw [hlp])
      exact hbin lp.2 (by omega) lp.1 Precedence.MIN f (by omega)
    exact ⟨hbin, hprim, hcalls, hterm, hinner, hexp⟩
  | succ k ih =>
    obtain ⟨ihBin, ihPrim, ihCalls, ihTerm, ihInner, ihExp⟩ := ih
    have hbin : ∀ pos, ts.length ≤ pos + (k + 1) → ∀ lhs mp fuel,
        3 * (k + 1) + 1 ≤ fuel →
        Parser.parse_binops fuel ts lhs mp pos ≠ .outOfFuel := by
      intro pos hk lhs mp fuel hfuel
      obtain ⟨f, rfl⟩ : ∃ f, fuel = f + 1 := ⟨fuel - 1, by omega⟩
      simp only [Parser.parse_binops]
      split
      · refine PRes.bind_ne_outOfFuel (Parser.next_ne_outOfFuel ts pos) ?_
        intro pos1 hpos1
        obtain ⟨hp1, hlt⟩ := Parser.next_ok ts pos pos1 hpos1
        subst hp1
        refine PRes.bind_ne_outOfFuel (ihTerm (pos + 1) (by omega) f (by omega)) ?_
        intro rp hrp
        have hrp2 := (progress_all f ts).2.2.2.1 (pos + 1) rp.1 rp.2 (by rw [hrp])
        refine PRes.bind_ne_outOfFuel
          (ihInner rp.2 (by omega) (Parser.cur ts pos) rp.1 f (by omega)) ?_
        intro rp2 hrp2eq
        have hrp3 := (progress_all f ts).2.2.1 (Parser.cur ts pos) rp.1 rp.2
          rp2.1 rp2.2 (by rw [hrp2eq])
        cases hb : (Parser.cur ts pos).to_binop with
        | some op =>
          exact ihBin rp2.2 (by omega) (AstNode.bin op lhs rp2.1) mp f (by omega)
        | none =>
          intro hx
          cases hx
      · intro hx
        cases hx
    have hprim : ∀ pos, ts.length ≤ pos + (k + 1) → ∀ fuel,
        3 * (k + 1) + 1 ≤ fuel →
        Parser.parse_primary fuel ts pos ≠ .outOfFuel := by
      intro pos hk fuel hfuel
      obtain ⟨f, rfl⟩ : ∃ f, fuel = f + 1 := ⟨fuel - 1, by omega⟩
      simp only [Parser.parse_primary]
      cases hcu : Parser.cur ts pos
      case id name =>
        refine PRes.bind_ne_outOfFuel (Parser.next_ne_outOfFuel ts pos) ?_
        intro a ha
        intro hx
        cases hx
      case numLit val =>
        refine PRes.bind_ne_outOfFuel (Parser.next_ne_outOfFuel ts pos) ?_
        intro a ha
        intro hx
        cases hx
      case lparen =>
        refine PRes.bind_ne_outOfFuel (Parser.next_ne_outOfFuel ts pos) ?_
        intro pos1 hpos1
        obtain ⟨hp1, hlt⟩ := Parser.next_ok ts pos pos1 hpos1
        subst hp1
        refine PRes.bind_ne_outOfFuel (ihExp (pos + 1) (by omega) f (by omega)) ?_
        intro rp hrp
        refine PRes.bind_ne_outOfFuel (Parser.expect_rparen_ne_outOfFuel ts rp.2) ?_
        intro p2 hp2
        intro hx
        cases hx
      all_goals intro hx
      all_goals cases hx
    have hcalls : ∀ pos, ts.length ≤ pos + (k + 1) → ∀ lhs fuel,
        3 * (k + 1) + 1 ≤ fuel →
        Parser.parse_calls fuel ts lhs pos ≠ .outOfFuel := by
      intro pos hk lhs fuel hfuel
      obtain ⟨f, rfl⟩ : ∃ f, fuel = f + 1 := ⟨fuel - 1, by omega⟩
      simp only [Parser.parse_calls]
      cases hcu : Parser.cur ts pos
      case lparen =>
        refine PRes.bind_ne_outOfFuel (Parser.next_ne_outOfFuel ts pos) ?_
        intro pos1 hpos1
        obtain ⟨hp1, hlt⟩ := Parser.next_ok ts pos pos1 hpos1
        subst hp1
        refine PRes.bind_ne_outOfFuel (ihExp (pos + 1) (by omega) f (by omega)) ?_
        intro rp hrp
        have h1 := (progress_all f ts).1 (pos + 1) rp.1 rp.2 (by rw [hrp])
        refine PRes.bind_ne_outOfFuel (Parser.expect_rparen_ne_outOfFuel ts rp.2) ?_
        intro p2 hp2
        obtain ⟨hp2e, _⟩ := Parser.expect_rparen_ok ts rp.2 p2 hp2
        subst hp2e
        exact ihCalls (rp.2 + 1) (by omega) (AstNode.call lhs rp.1) f (by omega)
      all_goals intro hx
      all_goals cases hx
    have hterm : ∀ pos, ts.length ≤ pos + (k + 1) → ∀ fuel,
        3 * (k + 1) + 2 ≤ fuel →
        Parser.parse_term fuel ts pos ≠ .outOfFuel := by
      intro pos hk fuel hfuel
      obtain ⟨f, rfl⟩ : ∃ f, fuel = f + 1 := ⟨fuel - 1, by omega⟩
      simp only [Parser.parse_term]
      cases hcu : Parser.cur ts pos
      case minus =>
        refine PRes.bind_ne_outOfFuel (Parser.next_ne_outOfFuel ts pos) ?_
        intro pos1 hpos1
        obtain ⟨hp1, hlt⟩ := Parser.next_ok ts pos pos1 hpos1
        subst hp1
        refine PRes.bind_ne_outOfFuel (ihTerm (pos + 1) (by omega) f (by omega)) ?_
        intro rp hrp
        intro hx
        cases hx
      all_goals {
        refine PRes.bind_ne_outOfFuel (hprim pos (by omega) f (by omega)) ?_
        intro pp hpp
        have h1 := (progress_all f ts).2.2.2.2.1 pos pp.1 pp.2 (by rw [hpp])
        exact ihCalls pp.2 (by omega) pp.1 f (by omega)
      }
    have hinner : ∀ pos, ts.length ≤ pos + (k + 1) → ∀ op rhs fuel,
        3 * (k + 1) + 2 ≤ fuel →
        Parser.parse_binops_inner fuel ts op rhs pos ≠ .outOfFuel := by
      intro pos hk op rhs fuel hfuel
      obtain ⟨f, rfl⟩ : ∃ f, fuel = f + 1 := ⟨fuel - 1, by omega⟩
      simp only [Parser.parse_binops_inner]
      split
      · refine PRes.bind_ne_outOfFuel
          (hbin pos (by omega) rhs (Parser.cur ts pos).precedence f (by omega)) ?_
        intro rp hrp
        have h1 := ((progress_all f ts).2.1 rhs (Parser.cur ts pos).precedence
          pos rp.1 rp.2 (by rw [hrp])).2 (Precedence.is_at_least_refl _)
        exact ihInner rp.2 (by omega) op rp.1 f (by omega)
      · intro hx
        cases hx
    have hexp : ∀ pos, ts.length ≤ pos + (k + 1) → ∀ fuel,
        3 * (k + 1) + 3 ≤ fuel →
        Parser.parse_exp fuel ts pos ≠ .outOfFuel := by
      intro pos hk fuel hfuel
      obtain ⟨f, rfl⟩ : ∃ f, fuel = f + 1 := ⟨fuel - 1, by omega⟩
      simp only [Parser.parse_exp]
      refine PRes.bind_ne_outOfFuel (hterm pos (by omega) f (by omega)) ?_
      intro lp hlp
      have h1 := (progress_all f ts).2.2.2.1 pos lp.1 lp.2 (by rw [hlp])
      exact ihBin lp.2 (by omega) lp.1 Precedence.MIN f (by omega)
    exact ⟨hbin, hprim, hcalls, hterm, hinner, hexp⟩

-- ------------------------------------------------------------------------
-- Absence of panics
-- ------------------------------------------------------------------------

theorem PRes.bind_not_panicked {α β : Type} {r : PRes α} {f : α → PRes β}
    (h1 : r.isPanicked = false)
    (h2 : ∀ a, r = .ok a → (f a).isPanicked = false) :
    (r.bind f).isPanicked = false := by
  cases r with
  | ok v => exact h2 v rfl
  | err m => rfl
  | panicked m => simp [PRes.isPanicked] at h1
  | outOfFuel => rfl

theorem Parser.next_not_panicked_of_cur (ts : List Token) (pos : Nat)
    (h : Parser.cur ts pos ≠ Token.eof) :
    (Parser.next ts pos).isPanicked = false := by
  rw [Parser.next_eq_ok ts pos (Parser.lt_of_cur_ne_eof ts pos h)]
  rfl

/-- No execution of the parser panics, for any fuel and any input: the
assertion inside `Parser::next` holds at every call site (each is dominated
by an inspection of `cur()` that proved the current token is physically
present in the slice), and the `panic!` arm of `Token::to_binop` is
unreachable (`to_binop` is only invoked on a token that already passed the
precedence test).  For `parse_binops` this needs the precedence floor to be
a real precedence, which holds at both of its call sites
(`Precedence::MIN` from `parse_exp`, and a strictly positive precedence
from the inner loop). -/
theorem no_panic_all (fuel : Nat) (ts : List Token) :
    (∀ pos, (Parser.parse_exp fuel ts pos).isPanicked = false) ∧
    (∀ lhs mp pos, mp ≠ Precedence.none →
      (Parser.parse_binops fuel ts lhs mp pos).isPanicked = false) ∧
    (∀ op rhs pos,
      (Parser.parse_binops_inner fuel ts op rhs pos).isPanicked = false) ∧
    (∀ pos, (Parser.parse_term fuel ts pos).isPanicked = false) ∧
    (∀ pos, (Parser.parse_primary fuel ts pos).isPanicked = false) ∧
    (∀ lhs pos, (Parser.parse_calls fuel ts lhs pos).isPanicked = false) := by
  induction fuel with
  | zero =>
    refine ⟨?_, ?_, ?_, ?_, ?_, ?_⟩ <;> intros <;> rfl
  | succ fuel ih =>
    obtain ⟨ihExp, ihBin, ihInner, ihTerm, ihPrim, ihCalls⟩ := ih
    refine ⟨?_, ?_, ?_, ?_, ?_, ?_⟩
    · -- parse_exp
      intro pos
      simp only [Parser.parse_exp]
      refine PRes.bind_not_panicked (ihTerm pos) ?_
      intro lp hlp
      exact ihBin lp.1 Precedence.MIN lp.2 (by intro hx; cases hx)
    · -- parse_binops
      intro lhs mp pos hmp
      simp only [Parser.parse_binops]
      split
      case isTrue hc =>
        have h1 : 1 ≤ mp.rank := Precedence.rank_pos_of_ne_none mp hmp
        have h2 : mp.rank ≤ (Parser.cur ts pos).precedence.rank :=
          (Precedence.is_at_least_iff _ _).mp hc
        have hprec : (Parser.cur ts pos).precedence ≠ Precedence.none :=
          Precedence.ne_none_of_rank_pos _ (by omega)
        obtain ⟨hne, b, hb⟩ := Token.of_prec_ne_none (Parser.cur ts pos) hprec
        refine PRes.bind_not_panicked
          (Parser.next_not_panicked_of_cur ts pos hne) ?_
        intro pos1 hpos1
        refine PRes.bind_not_panicked (ihTerm pos1) ?_
        intro rp hrp
        refine PRes.bind_not_panicked
          (ihInner (Parser.cur ts pos) rp.1 rp.2) ?_
        intro rp2 hrp2
        rw [hb]
        exact ihBin (AstNode.bin b lhs rp2.1) mp rp2.2 hmp
      case isFalse hc => rfl
    · -- parse_binops_inner
      intro op rhs pos
      simp only [Parser.parse_binops_inner]
      split
      case isTrue hc =>
        have h2 : op.precedence.rank < (Parser.cur ts pos).precedence.rank :=
          (Precedence.is_higher_than_iff _ _).mp hc
        have hprec : (Parser.cur ts pos).precedence ≠ Precedence.none :=
          Precedence.ne_none_of_rank_pos _ (by omega)
        refine PRes.bind_not_panicked
          (ihBin rhs (Parser.cur ts pos).precedence pos hprec) ?_
        intro rp hrp
        exact ihInner op rp.1 rp.2
      case isFalse hc => rfl
    · -- parse_term
      intro pos
      simp only [Parser.parse_term]
      cases hcu : Parser.cur ts pos
      case minus =>
        refine PRes.bind_not_panicked
          (Parser.next_not_panicked_of_cur ts pos
            (by rw [hcu]; intro hx; cases hx)) ?_
        intro pos1 hpos1
        refine PRes.bind_not_panicked (ihTerm pos1) ?_
        intro rp hrp
        rfl
      all_goals {
        refine PRes.bind_not_panicked (ihPrim pos) ?_
        intro pp hpp
        exact ihCalls pp.1 pp.2
      }
    · -- parse_primary
      intro pos
      simp only [Parser.parse_primary]
      cases hcu : Parser.cur ts pos
      case id name =>
        refine PRes.bind_not_panicked
          (Parser.next_not_panicked_of_cur ts pos
            (by rw [hcu]; intro hx; cases hx)) ?_
        intro a ha
        rfl
      case numLit val =>
        refine PRes.bind_not_panicked
          (Parser.next_not_panicked_of_cur ts pos
            (by rw [hcu]; intro hx; cases hx)) ?_
        intro a ha
        rfl
      case lparen =>
        refine PRes.bind_not_panicked
          (Parser.next_not_panicked_of_cur ts pos
            (by rw [hcu]; intro hx; cases hx)) ?_
        intro pos1 hpos1
        refine PRes.bind_not_panicked (ihExp pos1) ?_
        intro rp hrp
        refine PRes.bind_not_panicked
          (Parser.expect_rparen_not_panicked ts rp.2) ?_
        intro p2 hp2
        rfl
      all_goals rfl
    · -- parse_calls
      intro lhs pos
      simp only [Parser.parse_calls]
      cases hcu : Parser.cur ts pos
      case lparen =>
        refine PRes.bind_not_panicked
          (Parser.next_not_panicked_of_cur ts pos
            (by rw [hcu]; intro hx; cases hx)) ?_
        intro pos1 hpos1
        refine PRes.bind_not_panicked (ihExp pos1) ?_
        intro rp hrp
        refine PRes.bind_not_panicked
          (Parser.expect_rparen_not_panicked ts rp.2) ?_
        intro p2 hp2
        exact ihCalls (AstNode.call lhs rp.1) p2
      all_goals rfl

-- ------------------------------------------------------------------------
-- Fuel irrelevance: adding fuel never changes a completed result
-- ------------------------------------------------------------------------

/-- Raising the fuel leaves every completed result unchanged: with more
fuel, each production either returns exactly what it returned before, or
the smaller run had already run out of fuel. -/
theorem agree_all (fuel : Nat) (ts : List Token) :
    (∀ pos fuel', fuel ≤ fuel' →
      Parser.parse_exp fuel' ts pos = Parser.parse_exp fuel ts pos ∨
        Parser.parse_exp fuel ts pos = .outOfFuel) ∧
    (∀ lhs mp pos fuel', fuel ≤ fuel' →
      Parser.parse_binops fuel' ts lhs mp pos =
          Parser.parse_binops fuel ts lhs mp pos ∨
        Parser.parse_binops fuel ts lhs mp pos = .outOfFuel) ∧
    (∀ op rhs pos fuel', fuel ≤ fuel' →
      Parser.parse_binops_inner fuel' ts op rhs pos =
          Parser.parse_binops_inner fuel ts op rhs pos ∨
        Parser.parse_binops_inner fuel ts op rhs pos = .outOfFuel) ∧
    (∀ pos fuel', fuel ≤ fuel' →
      Parser.parse_term fuel' ts pos = Parser.parse_term fuel ts pos ∨
        Parser.parse_term fuel ts pos = .outOfFuel) ∧
    (∀ pos fuel', fuel ≤ fuel' →
      Parser.parse_primary fuel' ts pos = Parser.parse_primary fuel ts pos ∨
        Parser.parse_primary fuel ts pos = .outOfFuel) ∧
    (∀ lhs pos fuel', fuel ≤ fuel' →
      Parser.parse_calls fuel' ts lhs pos =
          Parser.parse_calls fuel ts lhs pos ∨
        Parser.parse_calls fuel ts lhs pos = .outOfFuel) := by
  induction fuel with
  | zero =>
    refine ⟨?_, ?_, ?_, ?_, ?_, ?_⟩ <;> intros <;> exact Or.inr rfl
  | succ fuel ih =>
    obtain ⟨ihExp, ihBin, ihInner, ihTerm, ihPrim, ihCalls⟩ := ih
    refine ⟨?_, ?_, ?_, ?_, ?_, ?_⟩
    · -- parse_exp
      intro pos fuel' hle
      obtain ⟨m, rfl⟩ : ∃ m, fuel' = m + 1 := ⟨fuel' - 1, by omega⟩
      have hm : fuel ≤ m := by omega
      simp only [Parser.parse_exp]
      cases ihTerm pos m hm with
      | inr hoof => right; rw [hoof]; rfl
      | inl heq =>
        rw [heq]
        cases ht : Parser.parse_term fuel ts pos with
        | ok lp =>
          simp only [PRes.bind_ok]
          exact ihBin lp.1 Precedence.MIN lp.2 m hm
        | err msg => left; rfl
        | panicked msg => left; rfl
        | outOfFuel => left; rfl
    · -- parse_binops
      intro lhs mp pos fuel' hle
      obtain ⟨m, rfl⟩ : ∃ m, fuel' = m + 1 := ⟨fuel' - 1, by omega⟩
      have hm : fuel ≤ m := by omega
      simp only [Parser.parse_binops]
      by_cases hc : ((Parser.cur ts pos).precedence.is_at_least mp) = true
      · rw [if_pos hc]
        rw [if_pos hc]
        cases hn : Parser.next ts pos with
        | ok pos1 =>
          simp only [PRes.bind_ok]
          cases ihTerm pos1 m hm with
          | inr hoof => right; rw [hoof]; rfl
          | inl heq =>
            rw [heq]
            cases ht : Parser.parse_term fuel ts pos1 with
            | ok rp =>
              simp only [PRes.bind_ok]
              cases ihInner (Parser.cur ts pos) rp.1 rp.2 m hm with
              | inr hoof => right; rw [hoof]; rfl
              | inl heq2 =>
                rw [heq2]
                cases hi : Parser.parse_binops_inner fuel ts
                    (Parser.cur ts pos) rp.1 rp.2 with
                | ok rp2 =>
                  simp only [PRes.bind_ok]
                  cases hb : (Parser.cur ts pos).to_binop with
                  | some b =>
                    exact ihBin (AstNode.bin b lhs rp2.1) mp rp2.2 m hm
                  | none => left; rfl
                | err msg => left; rfl
                | panicked msg => left; rfl
                | outOfFuel => left; rfl
            | err msg => left; rfl
            | panicked msg => left; rfl
            | outOfFuel => left; rfl
        | err msg => left; rfl
        | panicked msg => left; rfl
        | outOfFuel => left; rfl
      · rw [if_neg hc]
        rw [if_neg hc]
        left; rfl
    · -- parse_binops_inner
      intro op rhs pos fuel' hle
      obtain ⟨m, rfl⟩ : ∃ m, fuel' = m + 1 := ⟨fuel' - 1, by omega⟩
      have hm : fuel ≤ m := by omega
      simp only [Parser.parse_binops_inner]
      by_cases hc :
        ((Parser.cur ts pos).precedence.is_higher_than op.precedence) = true
      · rw [if_pos hc]
        rw [if_pos hc]
        cases ihBin rhs (Parser.cur ts pos).precedence pos m hm with
        | inr hoof => right; rw [hoof]; rfl
        | inl heq =>
          rw [heq]
          cases hb : Parser.parse_binops fuel ts rhs
              (Parser.cur ts pos).precedence pos with
          | ok rp =>
            simp only [PRes.bind_ok]
            exact ihInner op rp.1 rp.2 m hm
          | err msg => left; rfl
          | panicked msg => left; rfl
          | outOfFuel => left; rfl
      · rw [if_neg hc]
        rw [if_neg hc]
        left; rfl
    · -- parse_term
      intro pos fuel' hle
      obtain ⟨m, rfl⟩ : ∃ m, fuel' = m + 1 := ⟨fuel' - 1, by omega⟩
      have hm : fuel ≤ m := by omega
      simp only [Parser.parse_term]
      cases hcu : Parser.cur ts pos
      case minus =>
        cases hn : Parser.next ts pos with
        | ok pos1 =>
          simp only [PRes.bind_ok]
          cases ihTerm pos1 m hm with
          | inr hoof => right; rw [hoof]; rfl
          | inl heq =>
            rw [heq]
            cases ht : Parser.parse_term fuel ts pos1 with
            | ok rp => left; rfl
            | err msg => left; rfl
            | panicked msg => left; rfl
            | outOfFuel => left; rfl
        | err msg => left; rfl
        | panicked msg => left; rfl
        | outOfFuel => left; rfl
      all_goals {
        cases ihPrim pos m hm with
        | inr hoof => right; rw [hoof]; rfl
        | inl heq =>
          rw [heq]
          cases hp : Parser.parse_primary fuel ts pos with
          | ok pp =>
            simp only [PRes.bind_ok]
            exact ihCalls pp.1 pp.2 m hm
          | err msg => left; rfl
          | panicked msg => left; rfl
          | outOfFuel => left; rfl
      }
    · -- parse_primary
      intro pos fuel' hle
      obtain ⟨m, rfl⟩ : ∃ m, fuel' = m + 1 := ⟨fuel' - 1, by omega⟩
      have hm : fuel ≤ m := by omega
      simp only [Parser.parse_primary]
      cases hcu : Parser.cur ts pos
      case lparen =>
        cases hn : Parser.next ts pos with
        | ok pos1 =>
          simp only [PRes.bind_ok]
          cases ihExp pos1 m hm with
          | inr hoof => right; rw [hoof]; rfl
          | inl heq => rw [heq]; left; rfl
        | err msg => left; rfl
        | panicked msg => left; rfl
        | outOfFuel => left; rfl
      all_goals left
      all_goals rfl
    · -- parse_calls
      intro lhs pos fuel' hle
      obtain ⟨m, rfl⟩ : ∃ m, fuel' = m + 1 := ⟨fuel' - 1, by omega⟩
      have hm : fuel ≤ m := by omega
      simp only [Parser.parse_calls]
      cases hcu : Parser.cur ts pos
      case lparen =>
        cases hn : Parser.next ts pos with
        | ok pos1 =>
          simp only [PRes.bind_ok]
          cases ihExp pos1 m hm with
          | inr hoof => right; rw [hoof]; rfl
          | inl heq =>
            rw [heq]
            cases he : Parser.parse_exp fuel ts pos1 with
            | ok rp =>
              simp only [PRes.bind_ok]
              cases hr : Parser.expect_rparen ts rp.2 with
              | ok pos2 =>
                simp only [PRes.bind_ok]
                exact ihCalls (AstNode.call lhs rp.1) pos2 m hm
              | err msg => left; rfl
              | panicked msg => left; rfl
              | outOfFuel => left; rfl
            | err msg => left; rfl
            | panicked msg => left; rfl
            | outOfFuel => left; rfl
        | err msg => left; rfl
        | panicked msg => left; rfl
        | outOfFuel => left; rfl
      all_goals left
      all_goals rfl

/-- Fuel irrelevance for the public entry point: once `parse_exp` completes
at some fuel, any larger fuel returns the same result. -/
theorem parse_exp_extend (ts : List Token) (fuel fuel' : Nat)
    (h : fuel ≤ fuel') (hne : parse_exp ts fuel ≠ .outOfFuel) :
    parse_exp ts fuel' = parse_exp ts fuel := by
  unfold parse_exp
  cases (agree_all fuel ts).1 0 fuel' h with
  | inl heq => rw [heq]
  | inr hoof =>
    exfalso
    apply hne
    unfold parse_exp
    rw [hoof]
    rfl

-- ------------------------------------------------------------------------
-- A physical end-of-input token is indistinguishable from the implied one
-- ------------------------------------------------------------------------

/-- `cur` cannot tell a physically present trailing `Eof` from the implied
one: appending `Eof` changes no answer of `cur`, at any position. -/
theorem Parser.cur_append_eof (ts : List Token) (pos : Nat) :
    Parser.cur (ts ++ [Token.eof]) pos = Parser.cur ts pos := by
  unfold Parser.cur
  by_cases h : pos < ts.length
  · rw [dif_pos h, dif_pos (by simp; omega)]
    simp only [List.get_eq_getElem]
    exact List.getElem_append_left h
  · rw [dif_neg h]
    by_cases h2 : pos < (ts ++ [Token.eof]).length
    · rw [dif_pos h2]
      have hpos : pos = ts.length := by simp at h2; omega
      subst hpos
      simp only [List.get_eq_getElem]
      exact List.getElem_concat_length ts Token.eof ts.length rfl _
    · rw [dif_neg h2]

theorem Parser.next_append_eof (ts : List Token) (pos : Nat)
    (h : pos < ts.length) :
    Parser.next (ts ++ [Token.eof]) pos = Parser.next ts pos := by
  rw [Parser.next_eq_ok ts pos h,
    Parser.next_eq_ok (ts ++ [Token.eof]) pos (by simp; omega)]

theorem Parser.expect_rparen_append_eof (ts : List Token) (pos : Nat) :
    Parser.expect_rparen (ts ++ [Token.eof]) pos =
      Parser.expect_rparen ts pos := by
  unfold Parser.expect_rparen
  rw [Parser.cur_append_eof]
  cases hcu : Parser.cur ts pos
  case rparen =>
    exact Parser.next_append_eof ts pos
      (Parser.lt_of_cur_ne_eof ts pos (by rw [hcu]; intro hx; cases hx))
  all_goals rfl

theorem Parser.expect_eof_append_eof (ts : List Token) (pos : Nat) :
    Parser.expect_eof (ts ++ [Token.eof]) pos = Parser.expect_eof ts pos := by
  unfold Parser.expect_eof
  rw [Parser.cur_append_eof]

/-- Appending a physical `Eof` token changes nothing in any production:
the implied end-of-input token and a physically present one are treated
identically.  (`parse_binops` again needs its floor to be a real
precedence, which holds at its reachable call sites; the other five
functions agree unconditionally.) -/
theorem append_eof_all (fuel : Nat) (ts : List Token) :
    (∀ pos, Parser.parse_exp fuel (ts ++ [Token.eof]) pos =
      Parser.parse_exp fuel ts pos) ∧
    (∀ lhs mp pos, mp ≠ Precedence.none →
      Parser.parse_binops fuel (ts ++ [Token.eof]) lhs mp pos =
        Parser.parse_binops fuel ts lhs mp pos) ∧
    (∀ op rhs pos,
      Parser.parse_binops_inner fuel (ts ++ [Token.eof]) op rhs pos =
        Parser.parse_binops_inner fuel ts op rhs pos) ∧
    (∀ pos, Parser.parse_term fuel (ts ++ [Token.eof]) pos =
      Parser.parse_term fuel ts pos) ∧
    (∀ pos, Parser.parse_primary fuel (ts ++ [Token.eof]) pos =
      Parser.parse_primary fuel ts pos) ∧
    (∀ lhs pos, Parser.parse_calls fuel (ts ++ [Token.eof]) lhs pos =
      Parser.parse_calls fuel ts lhs pos) := by
  induction fuel with
  | zero =>
    refine ⟨?_, ?_, ?_, ?_, ?_, ?_⟩ <;> intros <;> rfl
  | succ fuel ih =>
    obtain ⟨ihExp, ihBin, ihInner, ihTerm, ihPrim, ihCalls⟩ := ih
    refine ⟨?_, ?_, ?_, ?_, ?_, ?_⟩
    · -- parse_exp
      intro pos
      simp only [Parser.parse_exp]
      rw [ihTerm pos]
      cases ht : Parser.parse_term fuel ts pos with
      | ok lp =>
        simp only [PRes.bind_ok]
        exact ihBin lp.1 Precedence.MIN lp.2 (by intro hx; cases hx)
      | err msg => rfl
      | panicked msg => rfl
      | outOfFuel => rfl
    · -- parse_binops
      intro lhs mp pos hmp
      simp only [Parser.parse_binops]
      rw [Parser.cur_append_eof]
      by_cases hc : ((Parser.cur ts pos).precedence.is_at_least mp) = true
      · rw [if_pos hc]
        rw [if_pos hc]
        have h1 : 1 ≤ mp.rank := Precedence.rank_pos_of_ne_none mp hmp
        have h2 : mp.rank ≤ (Parser.cur ts pos).precedence.rank :=
          (Precedence.is_at_least_iff _ _).mp hc
        have hprec : (Parser.cur ts pos).precedence ≠ Precedence.none :=
          Precedence.ne_none_of_rank_pos _ (by omega)
        obtain ⟨hne, b, hb⟩ := Token.of_prec_ne_none (Parser.cur ts pos) hprec
        have hlt := Parser.lt_of_cur_ne_eof ts pos hne
        rw [Parser.next_eq_ok ts pos hlt,
          Parser.next_eq_ok (ts ++ [Token.eof]) pos (by simp; omega)]
        simp only [PRes.bind_ok]
        rw [ihTerm (pos + 1)]
        cases ht : Parser.parse_term fuel ts (pos + 1) with
        | ok rp =>
          simp only [PRes.bind_ok]
          rw [ihInner (Parser.cur ts pos) rp.1 rp.2]
          cases hi : Parser.parse_binops_inner fuel ts
              (Parser.cur ts pos) rp.1 rp.2 with
          | ok rp2 =>
            simp only [PRes.bind_ok]
            rw [hb]
            exact ihBin (AstNode.bin b lhs rp2.1) mp rp2.2 hmp
          | err msg => rfl
          | panicked msg => rfl
          | outOfFuel => rfl
        | err msg => rfl
        | panicked msg => rfl
        | outOfFuel => rfl
      · rw [if_neg hc]
        rw [if_neg hc]
    · -- parse_binops_inner
      intro op rhs pos
      simp only [Parser.parse_binops_inner]
      rw [Parser.cur_append_eof]
      by_cases hc :
        ((Parser.cur ts pos).precedence.is_higher_than op.precedence) = true
      · rw [if_pos hc]
        rw [if_pos hc]
        have h2 : op.precedence.rank < (Parser.cur ts pos).precedence.rank :=
          (Precedence.is_higher_than_iff _ _).mp hc
        have hprec : (Parser.cur ts pos).precedence ≠ Precedence.none :=
          Precedence.ne_none_of_rank_pos _ (by omega)
        rw [ihBin rhs (Parser.cur ts pos).precedence pos hprec]
        cases hb : Parser.parse_binops fuel ts rhs
            (Parser.cur ts pos).precedence pos with
        | ok rp =>
          simp only [PRes.bind_ok]
          exact ihInner op rp.1 rp.2
        | err msg => rfl
        | panicked msg => rfl
        | outOfFuel => rfl
      · rw [if_neg hc]
        rw [if_neg hc]
    · -- parse_term
      intro pos
      simp only [Parser.parse_term]
      rw [Parser.cur_append_eof]
      cases hcu : Parser.cur ts pos
      case minus =>
        have hlt := Parser.lt_of_cur_ne_eof ts pos
          (by rw [hcu]; intro hx; cases hx)
        rw [Parser.next_eq_ok ts pos hlt,
          Parser.next_eq_ok (ts ++ [Token.eof]) pos (by simp; omega)]
        simp only [PRes.bind_ok]
        rw [ihTerm (pos + 1)]
      all_goals {
        rw [ihPrim pos]
        cases hp : Parser.parse_primary fuel ts pos with
        | ok pp =>
          simp only [PRes.bind_ok]
          exact ihCalls pp.1 pp.2
        | err msg => rfl
        | panicked msg => rfl
        | outOfFuel => rfl
      }
    · -- parse_primary
      intro pos
      simp only [Parser.parse_primary]
      rw [Parser.cur_append_eof]
      cases hcu : Parser.cur ts pos
      case id name =>
        have hlt := Parser.lt_of_cur_ne_eof ts pos
          (by rw [hcu]; intro hx; cases hx)
        rw [Parser.next_eq_ok ts pos hlt,
          Parser.next_eq_ok (ts ++ [Token.eof]) pos (by simp; omega)]
      case numLit val =>
        have hlt := Parser.lt_of_cur_ne_eof ts pos
          (by rw [hcu]; intro hx; cases hx)
        rw [Parser.next_eq_ok ts pos hlt,
          Parser.next_eq_ok (ts ++ [Token.eof]) pos (by simp; omega)]
      case lparen =>
        have hlt := Parser.lt_of_cur_ne_eof ts pos
          (by rw [hcu]; intro hx; cases hx)
        rw [Parser.next_eq_ok ts pos hlt,
          Parser.next_eq_ok (ts ++ [Token.eof]) pos (by simp; omega)]
        simp only [PRes.bind_ok]
        rw [ihExp (pos + 1)]
        cases he : Parser.parse_exp fuel ts (pos + 1) with
        | ok rp =>
          simp only [PRes.bind_ok]
          rw [Parser.expect_rparen_append_eof ts rp.2]
        | err msg => rfl
        | panicked msg => rfl
        | outOfFuel => rfl
      all_goals rfl
    · -- parse_calls
      intro lhs pos
      simp only [Parser.parse_calls]
      rw [Parser.cur_append_eof]
      cases hcu : Parser.cur ts pos
      case lparen =>
        have hlt := Parser.lt_of_cur_ne_eof ts pos
          (by rw [hcu]; intro hx; cases hx)
        rw [Parser.next_eq_ok ts pos hlt,
          Parser.next_eq_ok (ts ++ [Token.eof]) pos (by simp; omega)]
        simp only [PRes.bind_ok]
        rw [ihExp (pos + 1)]
        cases he : Parser.parse_exp fuel ts (pos + 1) with
        | ok rp =>
          simp only [PRes.bind_ok]
          rw [Parser.expect_rparen_append_eof ts rp.2]
          cases hr : Parser.expect_rparen ts rp.2 with
          | ok pos2 =>
            simp only [PRes.bind_ok]
            exact ihCalls (AstNode.call lhs rp.1) pos2
          | err msg => rfl
          | panicked msg => rfl
          | outOfFuel => rfl
        | err msg => rfl
        | panicked msg => rfl
        | outOfFuel => rfl
      all_goals rfl

-- ------------------------------------------------------------------------
-- Classification of error values
-- ------------------------------------------------------------------------

theorem Parser.next_ne_err (ts : List Token) (pos : Nat) (m : String) :
    Parser.next ts pos ≠ PRes.err m := by
  unfold Parser.next
  split <;> intro hx <;> cases hx

theorem PRes.bind_eq_err {α β : Type} {r : PRes α} {f : α → PRes β}
    {m : String} (h : r.bind f = .err m) :
    r = .err m ∨ ∃ a, r = .ok a ∧ f a = .err m := by
  cases r with
  | ok v => exact Or.inr ⟨v, rfl, h⟩
  | err m2 => cases h; exact Or.inl rfl
  | panicked m2 => cases h
  | outOfFuel => cases h

theorem Parser.expect_rparen_err (ts : List Token) (pos : Nat) (m : String)
    (h : Parser.expect_rparen ts pos = PRes.err m) :
    m = "expected a right parenthesis" := by
  unfold Parser.expect_rparen at h
  split at h
  · exact absurd h (Parser.next_ne_err ts pos m)
  · injection h with h
    exact h.symm

theorem Parser.expect_eof_err (ts : List Token) (pos : Nat) (m : String)
    (h : Parser.expect_eof ts pos = PRes.err m) :
    m = "expected eof (there's extra stuff after the expression)" := by
  unfold Parser.expect_eof at h
  split at h
  · cases h
  · injection h with h
    exact h.symm

/-- Every error value produced inside the expression grammar is one of two
shapes: the fixed missing-right-parenthesis message, or the
unexpected-token-at-a-primary message quoting the offending token.  (The
trailing-input message is added only by the top-level entry point.)  In
particular the error value carries no position information. -/
theorem err_class_all (fuel : Nat) (ts : List Token) :
    (∀ pos m, Parser.parse_exp fuel ts pos = .err m →
      m = "expected a right parenthesis" ∨
        ∃ t, m = "expected an identifier, number, or parenthesized expression, not '"
          ++ Token.display t ++ "'") ∧
    (∀ lhs mp pos m, Parser.parse_binops fuel ts lhs mp pos = .err m →
      m = "expected a right parenthesis" ∨
        ∃ t, m = "expected an identifier, number, or parenthesized expression, not '"
          ++ Token.display t ++ "'") ∧
    (∀ op rhs pos m, Parser.parse_binops_inner fuel ts op rhs pos = .err m →
      m = "expected a right parenthesis" ∨
        ∃ t, m = "expected an identifier, number, or parenthesized expression, not '"
          ++ Token.display t ++ "'") ∧
    (∀ pos m, Parser.parse_term fuel ts pos = .err m →
      m = "expected a right parenthesis" ∨
        ∃ t, m = "expected an identifier, number, or parenthesized expression, not '"
          ++ Token.display t ++ "'") ∧
    (∀ pos m, Parser.parse_primary fuel ts pos = .err m →
      m = "expected a right parenthesis" ∨
        ∃ t, m = "expected an identifier, number, or parenthesized expression, not '"
          ++ Token.display t ++ "'") ∧
    (∀ lhs pos m, Parser.parse_calls fuel ts lhs pos = .err m →
      m = "expected a right parenthesis" ∨
        ∃ t, m = "expected an identifier, number, or parenthesized expression, not '"
          ++ Token.display t ++ "'") := by
  induction fuel with
  | zero =>
    refine ⟨?_, ?_, ?_, ?_, ?_, ?_⟩ <;> intros <;>
      simp_all [Parser.parse_exp, Parser.parse_binops,
        Parser.parse_binops_inner, Parser.parse_term, Parser.parse_primary,
        Parser.parse_calls]
  | succ fuel ih =>
    obtain ⟨ihExp, ihBin, ihInner, ihTerm, ihPrim, ihCalls⟩ := ih
    refine ⟨?_, ?_, ?_, ?_, ?_, ?_⟩
    · -- parse_exp
      intro pos m h
      simp only [Parser.parse_exp] at h
      rcases PRes.bind_eq_err h with h | ⟨lp, hlp, h⟩
      · exact ihTerm pos m h
      · exact ihBin lp.1 Precedence.MIN lp.2 m h
    · -- parse_binops
      intro lhs mp pos m h
      simp only [Parser.parse_binops] at h
      split at h
      case isTrue hc =>
        rcases PRes.bind_eq_err h with h | ⟨pos1, hn, h⟩
        · exact absurd h (Parser.next_ne_err ts pos m)
        · rcases PRes.bind_eq_err h with h | ⟨rp, ht, h⟩
          · exact ihTerm pos1 m h
          · rcases PRes.bind_eq_err h with h | ⟨rp2, hi, h⟩
            · exact ihInner (Parser.cur ts pos) rp.1 rp.2 m h
            · cases hb : (Parser.cur ts pos).to_binop with
              | some b =>
                rw [hb] at h
                exact ihBin (AstNode.bin b lhs rp2.1) mp rp2.2 m h
              | none =>
                rw [hb] at h
                cases h
      case isFalse hc => cases h
    · -- parse_binops_inner
      intro op rhs pos m h
      simp only [Parser.parse_binops_inner] at h
      split at h
      case isTrue hc =>
        rcases PRes.bind_eq_err h with h | ⟨rp, hb, h⟩
        · exact ihBin rhs (Parser.cur ts pos).precedence pos m h
        · exact ihInner op rp.1 rp.2 m h
      case isFalse hc => cases h
    · -- parse_term
      intro pos m h
      simp only [Parser.parse_term] at h
      cases hcu : Parser.cur ts pos
      case minus =>
        rw [hcu] at h
        rcases PRes.bind_eq_err h with h | ⟨pos1, hn, h⟩
        · exact absurd h (Parser.next_ne_err ts pos m)
        · rcases PRes.bind_eq_err h with h | ⟨rp, ht, h⟩
          · exact ihTerm pos1 m h
          · cases h
      all_goals {
        rw [hcu] at h
        rcases PRes.bind_eq_err h with h | ⟨pp, hp, h⟩
        · exact ihPrim pos m h
        · exact ihCalls pp.1 pp.2 m h
      }
    · -- parse_primary
      intro pos m h
      simp only [Parser.parse_primary] at h
      cases hcu : Parser.cur ts pos
      case id name =>
        rw [hcu] at h
        rcases PRes.bind_eq_err h with h | ⟨a, ha, h⟩
        · exact absurd h (Parser.next_ne_err ts pos m)
        · cases h
      case numLit val =>
        rw [hcu] at h
        rcases PRes.bind_eq_err h with h | ⟨a, ha, h⟩
        · exact absurd h (Parser.next_ne_err ts pos m)
        · cases h
      case lparen =>
        rw [hcu] at h
        rcases PRes.bind_eq_err h with h | ⟨pos1, hn, h⟩
        · exact absurd h (Parser.next_ne_err ts pos m)
        · rcases PRes.bind_eq_err h with h | ⟨rp, he, h⟩
          · exact ihExp pos1 m h
          · rcases PRes.bind_eq_err h with h | ⟨pos2, hr, h⟩
            · exact Or.inl (Parser.expect_rparen_err ts rp.2 m h)
            · cases h
      all_goals {
        rw [hcu] at h
        injection h with h
        exact Or.inr ⟨_, h.symm⟩
      }
    · -- parse_calls
      intro lhs pos m h
      simp only [Parser.parse_calls] at h
      cases hcu : Parser.cur ts pos
      case lparen =>
        rw [hcu] at h
        rcases PRes.bind_eq_err h with h | ⟨pos1, hn, h⟩
        · exact absurd h (Parser.next_ne_err ts pos m)
        · rcases PRes.bind_eq_err h with h | ⟨rp, he, h⟩
          · exact ihExp pos1 m h
          · rcases PRes.bind_eq_err h with h | ⟨pos2, hr, h⟩
            · exact Or.inl (Parser.expect_rparen_err ts rp.2 m h)
            · exact ihCalls (AstNode.call lhs rp.1) pos2 m h
      all_goals {
        rw [hcu] at h
        cases h
      }

-- ------------------------------------------------------------------------
-- The claims
-- ------------------------------------------------------------------------

/-- C1: for the token sequence `[NumLit(1.0), Plus, NumLit(2.0), Times,
NumLit(3.0), Eof]`, `parse_exp` returns `Ok` of the tree
`Binary(Add, Num(1), Binary(Mul, Num(2), Num(3)))`: the multiplicative
operator binds tighter than the additive one.  Stated for every fuel at or
above the canonical bound `3 * length + 3 = 21`. -/
theorem claim_C1 : ∀ fuel, 21 ≤ fuel →
    parse_exp [Token.numLit 1.0, Token.plus, Token.numLit 2.0, Token.times,
      Token.numLit 3.0, Token.eof] fuel =
    PRes.ok (AstNode.bin .add (AstNode.num 1.0)
      (AstNode.bin .mul (AstNode.num 2.0) (AstNode.num 3.0))) := by
  intro fuel h
  have hbase : parse_exp [Token.numLit 1.0, Token.plus, Token.numLit 2.0,
      Token.times, Token.numLit 3.0, Token.eof] 21 =
      PRes.ok (AstNode.bin .add (AstNode.num 1.0)
        (AstNode.bin .mul (AstNode.num 2.0) (AstNode.num 3.0))) := rfl
  rw [parse_exp_extend _ 21 fuel h (by rw [hbase]; intro hx; cases hx), hbase]

theorem claim_C1_witness :
    parse_exp [Token.numLit 1.0, Token.plus, Token.numLit 2.0, Token.times,
      Token.numLit 3.0, Token.eof] 21 =
    PRes.ok (AstNode.bin .add (AstNode.num 1.0)
      (AstNode.bin .mul (AstNode.num 2.0) (AstNode.num 3.0))) :=
  claim_C1 21 (Nat.le_refl 21)

/-- C2: for the token sequence `[NumLit(1.0), Times, NumLit(2.0), Plus,
NumLit(3.0), Eof]`, `parse_exp` returns `Ok` of
`Binary(Add, Binary(Mul, Num(1), Num(2)), Num(3))`: operators of equal
precedence group left-to-right, and a lower-precedence operator after a
higher one does not end up inside the right subtree. -/
theorem claim_C2 : ∀ fuel, 21 ≤ fuel →
    parse_exp [Token.numLit 1.0, Token.times, Token.numLit 2.0, Token.plus,
      Token.numLit 3.0, Token.eof] fuel =
    PRes.ok (AstNode.bin .add
      (AstNode.bin .mul (AstNode.num 1.0) (AstNode.num 2.0))
      (AstNode.num 3.0)) := by
  intro fuel h
  have hbase : parse_exp [Token.numLit 1.0, Token.times, Token.numLit 2.0,
      Token.plus, Token.numLit 3.0, Token.eof] 21 =
      PRes.ok (AstNode.bin .add
        (AstNode.bin .mul (AstNode.num 1.0) (AstNode.num 2.0))
        (AstNode.num 3.0)) := rfl
  rw [parse_exp_extend _ 21 fuel h (by rw [hbase]; intro hx; cases hx), hbase]

theorem claim_C2_witness :
    parse_exp [Token.numLit 1.0, Token.times, Token.numLit 2.0, Token.plus,
      Token.numLit 3.0, Token.eof] 21 =
    PRes.ok (AstNode.bin .add
      (AstNode.bin .mul (AstNode.num 1.0) (AstNode.num 2.0))
      (AstNode.num 3.0)) :=
  claim_C2 21 (Nat.le_refl 21)

/-- C3: for the token sequence `[Minus, NumLit(2.0), Plus, NumLit(3.0),
Eof]`, `parse_exp` returns `Ok` of `Binary(Add, Negate(Num(2)), Num(3))`:
a `Minus` at the start of a `Term` is parsed as unary negation whose
operand is only the following `Term`, so the negation binds tighter than
the following binary operator. -/
theorem claim_C3 : ∀ fuel, 18 ≤ fuel →
    parse_exp [Token.minus, Token.numLit 2.0, Token.plus, Token.numLit 3.0,
      Token.eof] fuel =
    PRes.ok (AstNode.bin .add (AstNode.neg (AstNode.num 2.0))
      (AstNode.num 3.0)) := by
  intro fuel h
  have hbase : parse_exp [Token.minus, Token.numLit 2.0, Token.plus,
      Token.numLit 3.0, Token.eof] 18 =
      PRes.ok (AstNode.bin .add (AstNode.neg (AstNode.num 2.0))
        (AstNode.num 3.0)) := rfl
  rw [parse_exp_extend _ 18 fuel h (by rw [hbase]; intro hx; cases hx), hbase]

theorem claim_C3_witness :
    parse_exp [Token.minus, Token.numLit 2.0, Token.plus, Token.numLit 3.0,
      Token.eof] 18 =
    PRes.ok (AstNode.bin .add (AstNode.neg (AstNode.num 2.0))
      (AstNode.num 3.0)) :=
  claim_C3 18 (Nat.le_refl 18)

/-- C4: for the token sequence `[Id "f", LParen, NumLit(1.0), RParen,
LParen, NumLit(2.0), RParen, Eof]`, `parse_exp` returns `Ok` of
`Call(Call(Id "f", Num(1)), Num(2))`: postfix call application folds
left-to-right, chained calls nest with the earlier call as the callee of
the later one. -/
theorem claim_C4 : ∀ fuel, 27 ≤ fuel →
    parse_exp [Token.id "f", Token.lparen, Token.numLit 1.0, Token.rparen,
      Token.lparen, Token.numLit 2.0, Token.rparen, Token.eof] fuel =
    PRes.ok (AstNode.call
      (AstNode.call (AstNode.id "f") (AstNode.num 1.0))
      (AstNode.num 2.0)) := by
  intro fuel h
  have hbase : parse_exp [Token.id "f", Token.lparen, Token.numLit 1.0,
      Token.rparen, Token.lparen, Token.numLit 2.0, Token.rparen,
      Token.eof] 27 =
      PRes.ok (AstNode.call
        (AstNode.call (AstNode.id "f") (AstNode.num 1.0))
        (AstNode.num 2.0)) := rfl
  rw [parse_exp_extend _ 27 fuel h (by rw [hbase]; intro hx; cases hx), hbase]

theorem claim_C4_witness :
    parse_exp [Token.id "f", Token.lparen, Token.numLit 1.0, Token.rparen,
      Token.lparen, Token.numLit 2.0, Token.rparen, Token.eof] 27 =
    PRes.ok (AstNode.call
      (AstNode.call (AstNode.id "f") (AstNode.num 1.0))
      (AstNode.num 2.0)) :=
  claim_C4 27 (Nat.le_refl 27)

/-- C5: for every finite input token sequence, `parse_exp` terminates:
with the canonical fuel `3 * length + 3` the entry point returns an `Ok`
tree or an `Err` message — never the fuel-exhaustion marker of the
embedding (and, by `agree_all`/`parse_exp_extend`, no amount of extra fuel
changes the result).  The proof is the termination argument of the
source: every entered iteration of the `parse_binops` outer loop consumes
at least one token, and the inner re-entry climbs the bounded precedence
order while its own loop body strictly advances the cursor. -/
theorem claim_C5 (ts : List Token) :
    (∃ n, parse_exp ts (3 * ts.length + 3) = PRes.ok n) ∨
    (∃ m, parse_exp ts (3 * ts.length + 3) = PRes.err m) := by
  have hne : Parser.parse_exp (3 * ts.length + 3) ts 0 ≠ PRes.outOfFuel :=
    (total_all ts ts.length).2.2.2.2.2 0 (by omega) _ (by omega)
  have hnp := (no_panic_all (3 * ts.length + 3) ts).1 0
  unfold parse_exp
  cases he : Parser.parse_exp (3 * ts.length + 3) ts 0 with
  | ok rp =>
    simp only [PRes.bind_ok]
    cases Parser.expect_eof_cases ts rp.2 with
    | inl hh => rw [hh]; exact Or.inl ⟨rp.1, rfl⟩
    | inr hh => rw [hh]; exact Or.inr ⟨_, rfl⟩
  | err m => simp only [PRes.bind_err]; exact Or.inr ⟨m, rfl⟩
  | panicked m =>
    rw [he] at hnp
    simp [PRes.isPanicked] at hnp
  | outOfFuel => exact absurd he hne

/-- C6: no input and no fuel makes the entry point panic: the assertion in
`Parser::next` always holds when `next` is called, and the `panic!` arm of
`Token::to_binop` is unreachable; the result is always a normal value. -/
theorem claim_C6 (ts : List Token) (fuel : Nat) :
    (parse_exp ts fuel).isPanicked = false := by
  unfold parse_exp
  refine PRes.bind_not_panicked ((no_panic_all fuel ts).1 0) ?_
  intro rp hrp
  cases Parser.expect_eof_cases ts rp.2 with
  | inl hh => rw [hh]; rfl
  | inr hh => rw [hh]; rfl

/-- C7: a physically present end-of-input token and the implied one are
treated identically: for a token sequence without `Eof`, appending `Eof`
does not change the result of `parse_exp` (the same holds for every
sequence, since `cur()` answers identically at every position either
way). -/
theorem claim_C7 (ts : List Token) (fuel : Nat) (_h : Token.eof ∉ ts) :
    parse_exp (ts ++ [Token.eof]) fuel = parse_exp ts fuel := by
  unfold parse_exp
  rw [(append_eof_all fuel ts).1 0]
  cases he : Parser.parse_exp fuel ts 0 with
  | ok rp =>
    simp only [PRes.bind_ok]
    rw [Parser.expect_eof_append_eof ts rp.2]
  | err m => rfl
  | panicked m => rfl
  | outOfFuel => rfl

theorem claim_C7_witness :
    Token.eof ∉ [Token.id "x"] ∧
    parse_exp ([Token.id "x"] ++ [Token.eof]) 6 =
      parse_exp [Token.id "x"] 6 := by
  refine ⟨?_, claim_C7 [Token.id "x"] 6 ?_⟩ <;>
    · intro hx
      simp at hx

/-- C8: for the token sequence `[NumLit(1.0), NumLit(2.0), Eof]`,
`parse_exp` parses the first literal as a complete expression and then
fails with the trailing-input error of `expect_eof`, because the next
token is not the end-of-input marker; no AST is returned (the result is
`Err`, which carries only the message). -/
theorem claim_C8 : ∀ fuel, 12 ≤ fuel →
    parse_exp [Token.numLit 1.0, Token.numLit 2.0, Token.eof] fuel =
    PRes.err "expected eof (there's extra stuff after the expression)" := by
  intro fuel h
  have hbase : parse_exp [Token.numLit 1.0, Token.numLit 2.0, Token.eof] 12 =
      PRes.err "expected eof (there's extra stuff after the expression)" := rfl
  rw [parse_exp_extend _ 12 fuel h (by rw [hbase]; intro hx; cases hx), hbase]

theorem claim_C8_witness :
    parse_exp [Token.numLit 1.0, Token.numLit 2.0, Token.eof] 12 =
    PRes.err "expected eof (there's extra stuff after the expression)" :=
  claim_C8 12 (Nat.le_refl 12)

/-- C9 as stated is false on this code: the error channel is a plain
`String` with no position context.  These two inputs fail with a missing
right parenthesis at different token indices (the cursor stands at index 2
in the first, index 3 in the second) yet the caller receives identical
error values, so no token index can be recovered from the error. -/
theorem claim_C9_counterexample :
    parse_exp [Token.lparen, Token.numLit 1.0] 9 =
      PRes.err "expected a right parenthesis" ∧
    parse_exp [Token.lparen, Token.lparen, Token.numLit 1.0] 12 =
      PRes.err "expected a right parenthesis" :=
  ⟨rfl, rfl⟩

/-- C9 amended: on every parse failure the caller receives an error value —
a message string — that identifies which failure kind occurred: it is the
fixed missing-right-parenthesis message, the fixed trailing-input message,
or the unexpected-token-at-a-primary message quoting the offending token.
It carries no position context. -/
theorem claim_C9 (ts : List Token) (fuel : Nat) (m : String)
    (h : parse_exp ts fuel = PRes.err m) :
    m = "expected a right parenthesis" ∨
    m = "expected eof (there's extra stuff after the expression)" ∨
    ∃ t, m = "expected an identifier, number, or parenthesized expression, not '"
      ++ Token.display t ++ "'" := by
  unfold parse_exp at h
  rcases PRes.bind_eq_err h with h | ⟨rp, hrp, h⟩
  · rcases (err_class_all fuel ts).1 0 m h with h | h
    · exact Or.inl h
    · exact Or.inr (Or.inr h)
  · rcases PRes.bind_eq_err h with h | ⟨u, hu, h⟩
    · exact Or.inr (Or.inl (Parser.expect_eof_err ts rp.2 m h))
    · cases h

theorem claim_C9_witness :
    "expected eof (there's extra stuff after the expression)" =
        "expected a right parenthesis" ∨
      "expected eof (there's extra stuff after the expression)" =
        "expected eof (there's extra stuff after the expression)" ∨
      ∃ t, "expected eof (there's extra stuff after the expression)" =
        "expected an identifier, number, or parenthesized expression, not '"
          ++ Token.display t ++ "'" :=
  claim_C9 [Token.numLit 1.0, Token.numLit 2.0, Token.eof] 12
    "expected eof (there's extra stuff after the expression)" rfl

/-- C10: postfix call application binds tighter than unary negation: for
the token sequence `[Minus, Id "f", LParen, NumLit(1.0), RParen, Eof]`,
`parse_exp` returns `Ok` of `Negate(Call(Id "f", Num(1)))` — the minus
wraps the whole call — because `parse_term` parses the primary and all its
postfix operators before wrapping in `Negate`. -/
theorem claim_C10 : ∀ fuel, 21 ≤ fuel →
    parse_exp [Token.minus, Token.id "f", Token.lparen, Token.numLit 1.0,
      Token.rparen, Token.eof] fuel =
    PRes.ok (AstNode.neg
      (AstNode.call (AstNode.id "f") (AstNode.num 1.0))) := by
  intro fuel h
  have hbase : parse_exp [Token.minus, Token.id "f", Token.lparen,
      Token.numLit 1.0, Token.rparen, Token.eof] 21 =
      PRes.ok (AstNode.neg
        (AstNode.call (AstNode.id "f") (AstNode.num 1.0))) := rfl
  rw [parse_exp_extend _ 21 fuel h (by rw [hbase]; intro hx; cases hx), hbase]

theorem claim_C10_witness :
    parse_exp [Token.minus, Token.id "f", Token.lparen, Token.numLit 1.0,
      Token.rparen, Token.eof] 21 =
    PRes.ok (AstNode.neg
      (AstNode.call (AstNode.id "f") (AstNode.num 1.0))) :=
  claim_C10 21 (Nat.le_refl 21)

end ParsingMath
